import Mathlib

/-!
Verification of the RAG-Chatbot backend (src/backend/ingest.py, src/backend/main.py).

The Python code is shallowly embedded: HTML documents become a tree type `Node`
(the output of BeautifulSoup's parser), network and API calls become oracle
parameters, and every method with algorithmic content becomes an executable
Lean function translated line by line from the source.
-/

/-- Python `str.lower()` (per-code-point lowercasing; ASCII-faithful). -/
def pyLower (s : String) : String := String.mk (s.data.map Char.toLower)

/-- Python `str.upper()` (per-code-point uppercasing; ASCII-faithful). -/
def pyUpper (s : String) : String := String.mk (s.data.map Char.toUpper)

/-- Whether `p` is an initial segment of `l`. -/
def startsList (p l : List Char) : Bool :=
  match p, l with
  | [], _ => true
  | _ :: _, [] => false
  | a :: p, b :: l => a = b && startsList p l

/-- Whether `needle` occurs as a contiguous segment of `hay`. -/
def segmentOf (needle hay : List Char) : Bool :=
  match hay with
  | [] => startsList needle []
  | _ :: rest => startsList needle hay || segmentOf needle rest

/-- Python substring test `needle in hay` on strings. -/
def pySubstr (needle hay : String) : Bool := segmentOf needle.data hay.data

/-- Python slice `s[:n]` on a string: the first `n` code points. -/
def pyStrTake (n : Nat) (s : String) : String := String.mk (s.data.take n)

/-- Python slice `l[-n:]` on a list, for `n > 0`: the last `n` elements. -/
def pyLastSlice (n : Nat) {α : Type} (l : List α) : List α := l.drop (l.length - n)

/-- Drop leading whitespace characters. -/
def dropLeadingWs : List Char → List Char
  | [] => []
  | c :: cs => if c.isWhitespace then dropLeadingWs cs else c :: cs

/-- Python `str.strip()` (ASCII-faithful whitespace stripping at both ends). -/
def pyStrip (s : String) : String :=
  String.mk ((dropLeadingWs (dropLeadingWs s.data).reverse).reverse)

/-- Python `sep.join(parts)`. -/
def pyJoin (sep : String) : List String → String
  | [] => ""
  | [s] => s
  | s :: rest => s ++ sep ++ pyJoin sep rest

/-- Python `s.startswith(p)`. -/
def pyStartsWith (s p : String) : Bool := startsList p.data s.data

/-! ## HTML documents

`Node` models the parsed DOM that BeautifulSoup produces: an element with a tag
name and children, or a text node (NavigableString).  Attributes are irrelevant
to every function below and are omitted. -/

inductive Node : Type where
  | text (s : String) : Node
  | elem (name : String) (children : List Node) : Node
deriving Repr

mutual
/-- bs4 structural equality `==` on page elements (tag name and contents). -/
def nodeEq : Node → Node → Bool
  | .text s, .text t => s = t
  | .elem n cs, .elem m ds => n = m && nodesEq cs ds
  | .text _, .elem _ _ => false
  | .elem _ _, .text _ => false
termination_by structural n => n

/-- Pointwise `nodeEq` on child lists. -/
def nodesEq : List Node → List Node → Bool
  | [], [] => true
  | a :: as, b :: bs => nodeEq a b && nodesEq as bs
  | [], _ :: _ => false
  | _ :: _, [] => false
termination_by structural l => l
end

mutual
/-- All string fragments below a node, in document order (bs4 `self.strings`). -/
def nodeStrings : Node → List String
  | .text s => [s]
  | .elem _ cs => listStrings cs
termination_by structural n => n

/-- All string fragments below a list of nodes, in document order. -/
def listStrings : List Node → List String
  | [] => []
  | n :: ns => nodeStrings n ++ listStrings ns
termination_by structural l => l
end

/-- bs4 `get_text(separator=sep, strip=True)` joins the stripped, nonempty
string fragments with `sep` (this is `PageElement.get_text`, bs4 >= 4.9,
which NavigableStrings also support). -/
def getTextOf (sep : String) (n : Node) : String :=
  pyJoin sep (((nodeStrings n).map pyStrip).filter (fun s => s ≠ ""))

/-- bs4 `soup.get_text(separator=sep, strip=True)` over a whole document. -/
def getTextList (sep : String) (ns : List Node) : String :=
  pyJoin sep (((listStrings ns).map pyStrip).filter (fun s => s ≠ ""))

/-! ## ContentParser.parse_content (ingest.py lines 148-216) -/

/-- Tag names treated as chunk boundaries: `soup.find_all(["h1", "h2", "h3"])`. -/
def headerNames : List String := ["h1", "h2", "h3"]

/-- Whether a node is an element named h1, h2 or h3. -/
def isHeaderElem : Node → Bool
  | .text _ => false
  | .elem name _ => name ∈ headerNames

/-- Tag name of an element; `""` for a text node (headers are always elements). -/
def nodeName : Node → String
  | .text _ => ""
  | .elem name _ => name

/-- Whether an element would be decomposed by `soup(["script", "style"])`. -/
def isScript : Node → Bool
  | .text _ => false
  | .elem name _ => name = "script" || name = "style"

mutual
/-- Node part of the script/style `decompose()` pass of lines 153-154. -/
def stripScriptsNode : Node → Node
  | .text s => .text s
  | .elem name cs => .elem name (stripScripts cs)
termination_by structural n => n

/-- The `soup(["script", "style"])` + `decompose()` pass (lines 153-154):
removes every script/style element, everywhere in the tree. -/
def stripScripts : List Node → List Node
  | [] => []
  | n :: ns =>
      (if isScript n then [] else [stripScriptsNode n]) ++ stripScripts ns
termination_by structural l => l
end

mutual
/-- The headers of `soup.find_all(["h1", "h2", "h3"])` in document order, each
paired with the list of its following siblings (what `next_sibling` iterates). -/
def findHeaders : List Node → List (Node × List Node)
  | [] => []
  | n :: ns =>
      (if isHeaderElem n then [(n, ns)] else [])
        ++ findHeadersInside n ++ findHeaders ns
termination_by structural l => l

/-- Headers strictly inside a node, paired with their sibling tails. -/
def findHeadersInside : Node → List (Node × List Node)
  | .text _ => []
  | .elem _ cs => findHeaders cs
termination_by structural n => n
end

/-- The sibling scan of lines 185-199: walk the following siblings, stop at the
next header found by `find_all` or at any h1/h2/h3 sibling, and collect
`get_text(separator=" ", strip=True)` of every node before the boundary.
(bs4 >= 4.9: NavigableStrings also have `get_text`, so the `isinstance(str)`
branch of line 197 is unreachable and the first branch handles text nodes.) -/
def collectContent (nextHeader : Option Node) : List Node → List String
  | [] => []
  | c :: rest =>
      if (match nextHeader with | some nh => nodeEq c nh | none => false) then []
      else if isHeaderElem c then []
      else getTextOf " " c :: collectContent nextHeader rest

/-- A chunk as produced by `parse_content`. -/
structure Chunk : Type where
  url : String
  header : String
  content : String
  header_type : String
deriving Repr, DecidableEq

/-- Lines 176-214 for a single header: header text, boundary-limited content,
the `f"{header_text} {content}".strip()` merge, and the nonemptiness filter.
Returns `none` when the chunk is dropped (line 206). -/
def chunkOf (url : String) (h : Node) (nextHeader : Option Node) (tail : List Node) :
    Option Chunk :=
  let headerText := getTextOf "" h
  let content := pyStrip (pyJoin " " (collectContent nextHeader tail))
  let fullContent := pyStrip (headerText ++ " " ++ content)
  if fullContent ≠ "" then
    some { url := url, header := headerText, content := fullContent,
           header_type := nodeName h }
  else none

/-- The `for i, header in enumerate(headers)` loop of lines 175-214; the next
header of line 179-182 is the head of the remaining header list. -/
def chunksFromHeaders (url : String) : List (Node × List Node) → List Chunk
  | [] => []
  | (h, tail) :: rest =>
      (chunkOf url h (rest.head?.map Prod.fst) tail).toList
        ++ chunksFromHeaders url rest

/-- `ContentParser.parse_content` (lines 148-216).  The input is the parsed
DOM of the `html` argument. -/
def parse_content (html : List Node) (url : String) : List Chunk :=
  let soup := stripScripts html
  let headers := findHeaders soup
  if headers.isEmpty then
    let textContent := getTextList " " soup
    if textContent ≠ "" then
      [{ url := url, header := "Main Content", content := textContent,
         header_type := "none" }]
    else []
  else chunksFromHeaders url headers

example : parse_content [] "u" = [] := by decide
example :
    parse_content [.text "hello", .elem "p" [.text "world"]] "u" =
      [{ url := "u", header := "Main Content", content := "hello world",
         header_type := "none" }] := by decide
example :
    parse_content [.elem "h1" [.text "A"], .text "x", .elem "h2" [.text "B"], .text "y"] "u" =
      [{ url := "u", header := "A", content := "A x", header_type := "h1" },
       { url := "u", header := "B", content := "B y", header_type := "h2" }] := by
  decide

/-! ## WebExtractor.extract_all_pages (ingest.py lines 56-142)

The network is an oracle: `site` maps a URL to the list of `href` attributes
that the crawl loop's link scan (`soup.find_all('a', href=True)` plus the
sidebar selectors of lines 107-114, duplicates included) would find on that
page; a URL absent from `site` is a failed or empty fetch
(`get_page_content` returned `""`, line 73's `continue`).  `joinUrl` models
`urllib.parse.urljoin` and `baseDomain` the precomputed
`f"{urlparse(base_url).scheme}://{urlparse(base_url).netloc}"` of line 104;
both are opaque standard-library collaborators. -/

/-- Crawl-time collaborators and configuration of a `WebExtractor`. -/
structure CrawlConfig : Type where
  baseUrl : String
  baseDomain : String
  joinUrl : String → String → String
  site : List (String × List String)

/-- Line 132's static-asset/API blacklist. -/
def excluded_patterns : List String :=
  ["/api/", ".json", ".xml", ".css", ".js", ".ico", ".png", ".jpg", ".svg", ".woff"]

/-- Line 133: `any(pattern in absolute_url.lower() for pattern in excluded_patterns)`. -/
def matchesExcluded (url : String) : Bool :=
  excluded_patterns.any (fun p => pySubstr p (pyLower url))

/-- Line 120's skip test on the raw `href` value. -/
def skipHref (href : String) : Bool :=
  href = "" || pyStartsWith href "#" || pyStartsWith href "mailto:" ||
    pyStartsWith href "tel:" || pyStartsWith href "http://" ||
    pyStartsWith href "https://"

/-- One iteration of the `for link in links` loop (lines 116-136): the URL
appended to `urls_to_visit` for one href, if any.  `visited` is the visited
set at that moment (it already contains `current`). -/
def linkCandidate (cfg : CrawlConfig) (visited : List String) (current href : String) :
    List String :=
  if skipHref href then []
  else if pyStartsWith (cfg.joinUrl current href) cfg.baseDomain then
    if matchesExcluded (cfg.joinUrl current href) = false ∧
        cfg.joinUrl current href ∉ visited then
      [cfg.joinUrl current href]
    else []
  else []

/-- The whole `for link in links` loop: the URLs appended to `urls_to_visit`
while processing `current` with the given hrefs, in order. -/
def processLinks (cfg : CrawlConfig) (visited : List String) (current : String)
    (hrefs : List String) : List String :=
  hrefs.flatMap (linkCandidate cfg visited current)

/-- First-match association lookup for the site oracle. -/
def siteLookup : List (String × List String) → String → Option (List String)
  | [], _ => none
  | (u, hs) :: rest, k => if u = k then some hs else siteLookup rest k

/-- The mutable state of the crawl loop: `visited` (the Python set, kept in
insertion order), `pages` (the URLs of the page records appended on line 93)
and `urls_to_visit`. -/
structure CrawlState : Type where
  visited : List String
  pages : List String
  queue : List String
deriving Repr, DecidableEq

/-- One-or-more iterations of the `while urls_to_visit` loop (lines 62-141),
fuel-indexed: `none` means the fuel ran out before the queue emptied, `some`
is the state in which the loop exited. -/
def crawlLoop (cfg : CrawlConfig) : Nat → CrawlState → Option CrawlState
  | 0, st => if st.queue.isEmpty then some st else none
  | fuel + 1, st =>
      match st.queue with
      | [] => some st
      | current :: rest =>
          if current ∈ st.visited then
            crawlLoop cfg fuel { st with queue := rest }
          else
            let visited := st.visited ++ [current]
            match siteLookup cfg.site current with
            | none => crawlLoop cfg fuel { visited := visited, pages := st.pages, queue := rest }
            | some hrefs =>
                crawlLoop cfg fuel
                  { visited := visited,
                    pages := st.pages ++ [current],
                    queue := rest ++ processLinks cfg visited current hrefs }

/-- The initial state of `extract_all_pages`: lines 58-60. -/
def initState (cfg : CrawlConfig) : CrawlState :=
  { visited := [], pages := [], queue := [cfg.baseUrl] }

/-- One filtered link step of the crawl: from a successfully fetched page `u`,
an href `h` on `u` survives every check of lines 119-135 and joins to `v`.
(The `v ∉ visited` dedup check is stateful and therefore not part of the edge.) -/
def CrawlEdge (cfg : CrawlConfig) (u v : String) : Prop :=
  ∃ hrefs h, siteLookup cfg.site u = some hrefs ∧ h ∈ hrefs ∧
    skipHref h = false ∧ v = cfg.joinUrl u h ∧
    pyStartsWith v cfg.baseDomain = true ∧ matchesExcluded v = false

/-- A URL the crawl can reach from the seed through filtered links. -/
def Reachable (cfg : CrawlConfig) (v : String) : Prop :=
  Relation.ReflTransGen (CrawlEdge cfg) cfg.baseUrl v

/-! ## EmbeddingService.generate_embeddings (ingest.py lines 241-308)

The Cohere client is an oracle `call model inputType texts` returning either
the embeddings or an error.  Python exceptions are split the way the handlers
of lines 254 and 282 split them: `TypeError` versus any other `Exception`,
each carrying its `str(e)` message.  The vector element type is a parameter
`α` (the reference service returns floats, whose values no claim inspects). -/

/-- An exception raised by `self.client.embed`, with its `str(e)` message. -/
inductive EmbError : Type where
  | typeError (msg : String) : EmbError
  | otherError (msg : String) : EmbError
deriving Repr, DecidableEq

/-- Oracle type for `self.client.embed(model=..., texts=..., input_type=...)`. -/
def EmbedCall (α : Type) : Type :=
  String → Option String → List String → Except EmbError (List (List α))

/-- Line 288's fallback model chain. -/
def fallback_models : List String := ["small", "medium", "large", "embed-english-v2.0"]

/-- The `for fallback_model in fallback_models` loop of lines 290-305: first
success wins; if every model fails, one empty vector per text (line 305). -/
def tryFallbacks {α : Type} (call : EmbedCall α) (texts : List String) :
    List String → List (List α)
  | [] => texts.map (fun _ => [])
  | m :: ms =>
      match call m none texts with
      | .ok e => e
      | .error _ => tryFallbacks call texts ms

/-- `EmbeddingService.generate_embeddings` (lines 241-308).  `self.model` is
`"embed-english-v3.0"` (line 239); the `self.model` reassignments on success
paths (lines 268, 297) happen after the value being returned is fixed and are
irrelevant to a single call. -/
def generate_embeddings {α : Type} (call : EmbedCall α) (texts : List String) :
    List (List α) :=
  match call "embed-english-v3.0" (some "search_document") texts with
  | .ok e => e
  | .error (.typeError msg) =>
      if pySubstr "input_type" msg then
        match call "small" none texts with
        | .ok e => e
        | .error _ =>
            match call "embed-english-v3.0" none texts with
            | .ok e => e
            | .error _ => texts.map (fun _ => [])
      else texts.map (fun _ => [])
  | .error (.otherError msg) =>
      if pySubstr "input_type must be provided" msg then
        tryFallbacks call texts fallback_models
      else texts.map (fun _ => [])

/-! ## VectorStore.store_chunks (ingest.py lines 340-372) -/

/-- A Qdrant `PointStruct` as built on lines 348-359 (the constant
`module`/`content_type` payload fields are omitted as constants). -/
structure Point (α : Type) : Type where
  id : Nat
  vector : List α
  payload_url : String
  payload_header : String
  payload_content : String
  payload_header_type : String
deriving Repr, DecidableEq

/-- The `for i, (chunk, embedding) in enumerate(zip(chunks, embeddings))` loop
of lines 344-360, started at index `i`: chunks whose embedding is empty are
skipped (line 345), the rest become points with `id = i` and a payload whose
content is truncated to 10,000 characters (line 354). -/
def mkPointsFrom {α : Type} (i : Nat) : List (Chunk × List α) → List (Point α)
  | [] => []
  | (c, e) :: rest =>
      (if e.isEmpty then []
       else [{ id := i, vector := e, payload_url := c.url,
               payload_header := c.header,
               payload_content := pyStrTake 10000 c.content,
               payload_header_type := c.header_type }])
        ++ mkPointsFrom (i + 1) rest

/-- The list of points `VectorStore.store_chunks` builds and then upserts in
batches of 20 (the batched upsert and sleeps do not change the point list). -/
def store_chunks {α : Type} (chunks : List Chunk) (embeddings : List (List α)) :
    List (Point α) :=
  mkPointsFrom 0 (chunks.zip embeddings)

/-! ## RAGAgent.generate_response context assembly (main.py lines 211-268) -/

/-- One entry of `additional_context["selected_texts"]`; `timestamp` is
`none` when the dict has no timestamp key (line 235's `.get` default). -/
structure Selection : Type where
  text : String
  timestamp : Option String
deriving Repr, DecidableEq

/-- One chat-history message row. -/
structure Message : Type where
  role : String
  content : String
deriving Repr, DecidableEq

/-- One retrieved source as produced by `retrieve_content` (lines 195-204);
only the fields the context assembly and citation extraction read. -/
structure Retrieved : Type where
  content : String
  url : String
  header : String
deriving Repr, DecidableEq

/-- Lines 234-237: the two context lines a highlighted selection contributes. -/
def selectionLines (s : Selection) : List String :=
  ["[Highlighted at " ++ s.timestamp.getD "unknown" ++ "]", "Text: " ++ s.text]

/-- Lines 243-248: the four context lines of retrieved source number `i + 1`. -/
def retrievedLines (i : Nat) (r : Retrieved) : List String :=
  ["--- Source " ++ toString (i + 1) ++ " ---",
   "URL: " ++ r.url,
   "Section: " ++ r.header,
   "Content: " ++ pyStrTake 800 r.content ++ "..."]

/-- Lines 253-256: one role-labeled conversation-history line. -/
def historyLine (m : Message) : String := pyUpper m.role ++ ": " ++ m.content

/-- The `context_parts` list of lines 225-256.  `selectedTexts` is `none` when
`additional_context` is falsy or lacks the `"selected_texts"` key. -/
def context_parts (systemPrompt : String) (selectedTexts : Option (List Selection))
    (retrievedContent : List Retrieved) (chatHistory : List Message) : List String :=
  [systemPrompt]
    ++ (match selectedTexts with
        | some sel =>
            "USER HIGHLIGHTED TEXT (PRIMARY CONTEXT):"
              :: (pyLastSlice 5 sel).flatMap selectionLines
        | none => [])
    ++ (if retrievedContent.isEmpty then []
        else "RELEVANT DOCUMENT SECTIONS:"
          :: (retrievedContent.enum.flatMap fun p => retrievedLines p.1 p.2))
    ++ (if chatHistory.isEmpty then []
        else "CONVERSATION HISTORY:" :: (pyLastSlice 8 chatHistory).map historyLine)

/-- Line 259: `full_context = "\n\n".join(context_parts)`. -/
def full_context (systemPrompt : String) (selectedTexts : Option (List Selection))
    (retrievedContent : List Retrieved) (chatHistory : List Message) : String :=
  pyJoin "\n\n" (context_parts systemPrompt selectedTexts retrievedContent chatHistory)

/-! ## RAGAgent.extract_citations (main.py lines 297-317)

Python's `set` has unspecified iteration order; the model keeps the set as a
deduplicated list in insertion order, one deterministic refinement of it. -/

/-- Adding one string to the citation set. -/
def insertCitation (cs : List String) (c : String) : List String :=
  if c ∈ cs then cs else cs ++ [c]

/-- Lines 308-310: the URL citation a source contributes, if any. -/
def urlCitation (response : String) (src : Retrieved) : Option String :=
  if src.url ≠ "" ∧ pySubstr src.url response then some src.url else none

/-- Lines 312-314: the section citation a source contributes, if any. -/
def headerCitation (response : String) (src : Retrieved) : Option String :=
  if src.header ≠ "" ∧ pySubstr (pyLower src.header) (pyLower response) then
    some ("Section: " ++ src.header)
  else none

/-- One iteration of the `for content in retrieved_content` loop (lines 307-314). -/
def addSourceCitations (response : String) (acc : List String) (src : Retrieved) :
    List String :=
  let acc1 := match urlCitation response src with
    | some c => insertCitation acc c
    | none => acc
  match headerCitation response src with
  | some c => insertCitation acc1 c
  | none => acc1

/-- `RAGAgent.extract_citations` (lines 297-317): collect, then
`list(citations)[:5]`. -/
def extract_citations (response : String) (retrievedContent : List Retrieved) :
    List String :=
  (retrievedContent.foldl (addSourceCitations response) []).take 5

/-! ## Claims -/

/-- C2 counterexample: the empty page has zero h1/h2/h3 headings, yet
`parse_content` returns zero chunks, not exactly one, because the
`if text_content:` guard of line 164 drops the fallback chunk when the
extracted text is empty. -/
theorem c2_counterexample :
    (findHeaders (stripScripts ([] : List Node))).length = 0 ∧
      parse_content [] "u" = [] := by
  decide

/-- C2 (amended): for every HTML input with zero h1/h2/h3 headings whose
extracted page text is nonempty, `parse_content` returns exactly one chunk
with header "Main Content", header_type "none", covering the whole page
text. -/
theorem c2_amended (doc : List Node) (url : String)
    (hh : (findHeaders (stripScripts doc)).isEmpty = true)
    (ht : getTextList " " (stripScripts doc) ≠ "") :
    parse_content doc url =
      [{ url := url, header := "Main Content",
         content := getTextList " " (stripScripts doc), header_type := "none" }] := by
  unfold parse_content
  simp [hh, ht]

/-- C2 amended witness: a concrete page with text and no headings. -/
theorem c2_witness :
    parse_content [.text "hello", .elem "p" [.text "world"]] "u" =
      [{ url := "u", header := "Main Content", content := "hello world",
         header_type := "none" }] := by
  have h := c2_amended [.text "hello", .elem "p" [.text "world"]] "u"
    (by decide) (by decide)
  simpa using h

/-- A throwaway chunk used to build concrete store inputs. -/
def chunk0 : Chunk :=
  { url := "u", header := "H", content := "c", header_type := "h1" }

/-- Whether a list of ids is a run of consecutive integers. -/
def consecutiveIds : List Nat → Bool
  | [] => true
  | [_] => true
  | a :: b :: rest => (b = a + 1) && consecutiveIds (b :: rest)

/-- C7 counterexample: with three chunks whose middle embedding is empty, the
stored point ids are `[0, 2]` — pairwise distinct, but not sequential,
because `enumerate` keeps counting over skipped chunks. -/
theorem c7_counterexample :
    (store_chunks [chunk0, chunk0, chunk0]
        ([[1], [], [1]] : List (List Nat))).map Point.id = [0, 2] ∧
      consecutiveIds ((store_chunks [chunk0, chunk0, chunk0]
          ([[1], [], [1]] : List (List Nat))).map Point.id) = false := by
  decide

/-- Ids of the points built from index `i` lie in `[i, i + pairs.length)`. -/
theorem mkPointsFrom_id_bounds {α : Type} :
    ∀ (pairs : List (Chunk × List α)) (i : Nat),
      ∀ p ∈ mkPointsFrom i pairs, i ≤ p.id ∧ p.id < i + pairs.length
  | [], _, p, hp => by simp [mkPointsFrom] at hp
  | (c, e) :: rest, i, p, hp => by
      simp only [mkPointsFrom, List.mem_append] at hp
      rcases hp with hp | hp
      · rcases Bool.eq_false_or_eq_true e.isEmpty with he | he <;>
          simp [he] at hp
        subst hp
        simp
      · have := mkPointsFrom_id_bounds rest (i + 1) p hp
        constructor <;> [omega; (simp only [List.length_cons]; omega)]

/-- Point ids are strictly increasing in build order. -/
theorem mkPointsFrom_id_sorted {α : Type} :
    ∀ (pairs : List (Chunk × List α)) (i : Nat),
      ((mkPointsFrom i pairs).map Point.id).Pairwise (· < ·)
  | [], _ => by simp [mkPointsFrom]
  | (c, e) :: rest, i => by
      simp only [mkPointsFrom, List.map_append, List.pairwise_append]
      refine ⟨?_, mkPointsFrom_id_sorted rest (i + 1), ?_⟩
      · rcases Bool.eq_false_or_eq_true e.isEmpty with he | he <;> simp [he]
      · intro a ha b hb
        simp only [List.mem_map] at hb
        obtain ⟨p, hp, rfl⟩ := hb
        have hb' := (mkPointsFrom_id_bounds rest (i + 1) p hp).1
        rcases Bool.eq_false_or_eq_true e.isEmpty with he | he <;>
          simp [he] at ha
        omega

/-- When no embedding is empty, the ids are exactly `i, i+1, ...`. -/
theorem mkPointsFrom_id_range {α : Type} :
    ∀ (pairs : List (Chunk × List α)) (i : Nat),
      (∀ pe ∈ pairs, pe.2.isEmpty = false) →
      (mkPointsFrom i pairs).map Point.id = List.range' i pairs.length
  | [], _, _ => by simp [mkPointsFrom]
  | (c, e) :: rest, i, h => by
      have he : e.isEmpty = false := h (c, e) (by simp)
      have ih := mkPointsFrom_id_range rest (i + 1) (fun pe hpe => h pe (by simp [hpe]))
      simp [mkPointsFrom, he, ih, List.range'_succ]

/-- C7 (amended): within one ingestion run the stored point ids are strictly
increasing, hence pairwise unique; each id is the `enumerate` index of its
chunk, so the ids are the consecutive integers `0..k-1` exactly when no
chunk is skipped for an empty embedding. -/
theorem c7_amended {α : Type} (chunks : List Chunk) (embeddings : List (List α)) :
    ((store_chunks chunks embeddings).map Point.id).Pairwise (· < ·) ∧
      ((∀ e ∈ embeddings, e.isEmpty = false) →
        (store_chunks chunks embeddings).map Point.id =
          List.range (chunks.zip embeddings).length) := by
  constructor
  · exact mkPointsFrom_id_sorted (chunks.zip embeddings) 0
  · intro h
    rw [List.range_eq_range']
    exact mkPointsFrom_id_range (chunks.zip embeddings) 0
      (fun pe hpe => h pe.2 (List.of_mem_zip hpe).2)

/-- C7 amended witness: a run with no skipped chunk has ids `[0, 1]`. -/
theorem c7_witness :
    (∀ e ∈ ([[1], [2]] : List (List Nat)), e.isEmpty = false) ∧
      (store_chunks [chunk0, chunk0] ([[1], [2]] : List (List Nat))).map Point.id =
        List.range ([chunk0, chunk0].zip ([[1], [2]] : List (List Nat))).length := by
  exact ⟨by decide, (c7_amended [chunk0, chunk0] [[1], [2]]).2 (by decide)⟩

/-- When every fallback model errors, the fallback loop returns one empty
vector per input text. -/
theorem tryFallbacks_all_fail {α : Type} (call : EmbedCall α) (texts : List String)
    (h : ∀ m it, ∃ e, call m it texts = Except.error e) :
    ∀ ms, tryFallbacks call texts ms = texts.map (fun _ => []) := by
  intro ms
  induction ms with
  | nil => rfl
  | cons m ms ih =>
      obtain ⟨e, he⟩ := h m none
      simp [tryFallbacks, he, ih]

/-- Points built since index `i`: none has an empty vector, and there is one
point per pair with a nonempty embedding. -/
theorem mkPointsFrom_vectors {α : Type} :
    ∀ (pairs : List (Chunk × List α)) (i : Nat),
      (∀ p ∈ mkPointsFrom i pairs, p.vector.isEmpty = false) ∧
        (mkPointsFrom i pairs).length =
          (pairs.filter (fun pe => !pe.2.isEmpty)).length
  | [], _ => by simp [mkPointsFrom]
  | (c, e) :: rest, i => by
      have ih := mkPointsFrom_vectors rest (i + 1)
      rcases Bool.eq_false_or_eq_true e.isEmpty with he | he <;>
        · constructor
          · intro p hp
            simp only [mkPointsFrom, he, List.mem_append] at hp
            first
              | (rcases hp with hp | hp
                 · simp at hp
                   subst hp
                   exact he
                 · exact ih.1 p hp)
              | exact ih.1 p (by simpa using hp)
          · simp [mkPointsFrom, he, ih.2, List.filter]

/-- C8: if the primary model and every fallback fail, `generate_embeddings`
returns (rather than raising) one empty vector per input text; and
`store_chunks` stores no point with an empty vector — exactly the chunks
whose embedding is nonempty become points, so ingestion is never aborted by
an embedding failure. -/
theorem c8_holds {α : Type} (call : EmbedCall α) (texts : List String)
    (chunks : List Chunk) (embeddings : List (List α)) :
    ((∀ m it, ∃ e, call m it texts = Except.error e) →
        generate_embeddings call texts = texts.map (fun _ => [])) ∧
      (∀ p ∈ store_chunks chunks embeddings, p.vector.isEmpty = false) ∧
      (store_chunks chunks embeddings).length =
        ((chunks.zip embeddings).filter (fun pe => !pe.2.isEmpty)).length := by
  refine ⟨?_, (mkPointsFrom_vectors (chunks.zip embeddings) 0).1,
    (mkPointsFrom_vectors (chunks.zip embeddings) 0).2⟩
  intro h
  obtain ⟨e1, he1⟩ := h "embed-english-v3.0" (some "search_document")
  unfold generate_embeddings
  rw [he1]
  cases e1 with
  | typeError msg =>
      obtain ⟨e2, he2⟩ := h "small" none
      obtain ⟨e3, he3⟩ := h "embed-english-v3.0" none
      by_cases hm : pySubstr "input_type" msg = true <;> simp [hm, he2, he3]
  | otherError msg =>
      by_cases hm : pySubstr "input_type must be provided" msg = true <;>
        simp [hm, tryFallbacks_all_fail call texts h]

/-- C8 witness: a concrete always-failing embed client and a store input with
one empty embedding. -/
theorem c8_witness :
    (∀ m it, ∃ e, (fun (_ : String) (_ : Option String) (_ : List String) =>
        (Except.error (EmbError.otherError "boom") : Except EmbError (List (List Nat))))
          m it ["a", "b"] = Except.error e) ∧
      generate_embeddings
        (fun _ _ _ => (Except.error (EmbError.otherError "boom") :
          Except EmbError (List (List Nat)))) ["a", "b"] =
        (["a", "b"].map (fun _ => [])) ∧
      (∀ p ∈ store_chunks [chunk0, chunk0] ([[1], []] : List (List Nat)),
        p.vector.isEmpty = false) ∧
      (store_chunks [chunk0, chunk0] ([[1], []] : List (List Nat))).length =
        (([chunk0, chunk0].zip ([[1], []] : List (List Nat))).filter
          (fun pe => !pe.2.isEmpty)).length := by
  have hfail : ∀ (m : String) (it : Option String),
      ∃ e, (fun (_ : String) (_ : Option String) (_ : List String) =>
        (Except.error (EmbError.otherError "boom") : Except EmbError (List (List Nat))))
          m it ["a", "b"] = Except.error e :=
    fun m it => ⟨EmbError.otherError "boom", rfl⟩
  have h := c8_holds
    (fun _ _ _ => (Except.error (EmbError.otherError "boom") :
      Except EmbError (List (List Nat))))
    ["a", "b"] [chunk0, chunk0] [[1], []]
  exact ⟨hfail, h.1 hfail, h.2.1, h.2.2⟩

/-- C9: every retrieved chunk contributes to the assembled context a content
line whose excerpt is the slice `content[:800]` — taken on whole code
points, so no character is ever split — with the ellipsis marker appended;
the excerpt is a code-point prefix of the content of length at most 800,
and exactly 800 when the content is at least that long. -/
theorem c9_holds (systemPrompt : String) (selectedTexts : Option (List Selection))
    (chatHistory : List Message) (rs : List Retrieved) (i : Nat) (r : Retrieved)
    (h : rs[i]? = some r) :
    ("Content: " ++ pyStrTake 800 r.content ++ "...") ∈
        context_parts systemPrompt selectedTexts rs chatHistory ∧
      (pyStrTake 800 r.content).data = r.content.data.take 800 ∧
      (pyStrTake 800 r.content).data <+: r.content.data ∧
      (pyStrTake 800 r.content).length ≤ 800 ∧
      (800 ≤ r.content.length → (pyStrTake 800 r.content).length = 800) := by
  have hne : rs.isEmpty = false := by
    cases rs with
    | nil => simp at h
    | cons a l => rfl
  have henum : (i, r) ∈ rs.enum := List.mk_mem_enum_iff_getElem?.mpr h
  refine ⟨?_, rfl, ⟨r.content.data.drop 800, by simp [pyStrTake]⟩, ?_, ?_⟩
  · unfold context_parts
    simp only [hne, Bool.false_eq_true, if_false, List.mem_append]
    refine Or.inl (Or.inr ?_)
    simp only [List.mem_cons, List.mem_flatMap]
    exact Or.inr ⟨(i, r), henum, by simp [retrievedLines]⟩
  · show (r.content.data.take 800).length ≤ 800
    simp [List.length_take]
  · intro hlong
    show (r.content.data.take 800).length = 800
    simp only [List.length_take]
    exact min_eq_left hlong

/-- C9 witness: a concrete retrieved list whose first source's content line
appears in the assembled context. -/
theorem c9_witness :
    ([{ content := "body", url := "u", header := "H" }] :
        List Retrieved)[0]? = some { content := "body", url := "u", header := "H" } ∧
      ("Content: " ++ pyStrTake 800 "body" ++ "...") ∈
        context_parts "sys" none [{ content := "body", url := "u", header := "H" }] [] := by
  refine ⟨rfl, ?_⟩
  exact (c9_holds "sys" none [] [{ content := "body", url := "u", header := "H" }]
    0 { content := "body", url := "u", header := "H" } rfl).1

/-- C10: a source with an empty URL payload contributes no URL citation, a
source with an empty header payload contributes no section citation, and a
source with both empty leaves the citation set unchanged — the truthiness
guards `if url and ...` / `if header and ...` reject the empty string even
though it is a substring of every answer. -/
theorem c10_holds (response : String) (src : Retrieved) :
    (src.url = "" → urlCitation response src = none) ∧
      (src.header = "" → headerCitation response src = none) ∧
      (src.url = "" → src.header = "" →
        ∀ acc, addSourceCitations response acc src = acc) := by
  refine ⟨fun hu => ?_, fun hh => ?_, fun hu hh acc => ?_⟩
  · simp [urlCitation, hu]
  · simp [headerCitation, hh]
  · simp [addSourceCitations, urlCitation, headerCitation, hu, hh]

/-- C10 witness: a concrete source with empty URL and header contributes no
citation at all. -/
theorem c10_witness :
    urlCitation "answer" { content := "c", url := "", header := "" } = none ∧
      headerCitation "answer" { content := "c", url := "", header := "" } = none ∧
      addSourceCitations "answer" ["kept"] { content := "c", url := "", header := "" } =
        ["kept"] := by
  have h := c10_holds "answer" { content := "c", url := "", header := "" }
  exact ⟨h.1 rfl, h.2.1 rfl, h.2.2 rfl rfl ["kept"]⟩

/-- C5: with more than 8 history messages and more than 5 selections, the
assembled context contains exactly the most recent 8 messages (role-labeled,
in chronological order, as a suffix of the history) and exactly the most
recent 5 selections, never more. -/
theorem c5_holds (systemPrompt : String) (sels : List Selection)
    (retrievedContent : List Retrieved) (hist : List Message)
    (h5 : 5 < sels.length) (h8 : 8 < hist.length) :
    (pyLastSlice 5 sels).length = 5 ∧ pyLastSlice 5 sels <:+ sels ∧
      (pyLastSlice 8 hist).length = 8 ∧ pyLastSlice 8 hist <:+ hist ∧
      context_parts systemPrompt (some sels) retrievedContent hist =
        [systemPrompt]
          ++ ("USER HIGHLIGHTED TEXT (PRIMARY CONTEXT):"
                :: (pyLastSlice 5 sels).flatMap selectionLines)
          ++ (if retrievedContent.isEmpty then []
              else "RELEVANT DOCUMENT SECTIONS:"
                :: (retrievedContent.enum.flatMap fun p => retrievedLines p.1 p.2))
          ++ ("CONVERSATION HISTORY:" :: (pyLastSlice 8 hist).map historyLine) := by
  have hne : hist.isEmpty = false := by
    cases hist with
    | nil => simp at h8
    | cons a l => rfl
  refine ⟨?_, List.drop_suffix _ _, ?_, List.drop_suffix _ _, ?_⟩
  · simp only [pyLastSlice, List.length_drop]
    omega
  · simp only [pyLastSlice, List.length_drop]
    omega
  · unfold context_parts
    simp [hne]

/-- C5 witness: six selections and nine messages; the slices have length 5
and 8. -/
theorem c5_witness :
    (5 < (List.replicate 6 ({ text := "t", timestamp := none } : Selection)).length) ∧
      (8 < (List.replicate 9 ({ role := "user", content := "m" } : Message)).length) ∧
      (pyLastSlice 5 (List.replicate 6 ({ text := "t", timestamp := none } : Selection))).length = 5 ∧
      (pyLastSlice 8 (List.replicate 9 ({ role := "user", content := "m" } : Message))).length = 8 := by
  have h := c5_holds "sys" (List.replicate 6 { text := "t", timestamp := none })
    [] (List.replicate 9 { role := "user", content := "m" })
    (by decide) (by decide)
  exact ⟨by decide, by decide, h.1, h.2.2.1⟩

/-- A citation is justified when some retrieved source matches the answer by
the code's URL rule or header rule. -/
def Justified (response : String) (retrievedContent : List Retrieved) (c : String) : Prop :=
  ∃ src ∈ retrievedContent,
    urlCitation response src = some c ∨ headerCitation response src = some c

/-- Inserting into the citation set preserves deduplication. -/
theorem insertCitation_nodup {cs : List String} (h : cs.Nodup) (c : String) :
    (insertCitation cs c).Nodup := by
  unfold insertCitation
  by_cases hc : c ∈ cs
  · simpa [hc] using h
  · simp [hc, List.nodup_append, h]

/-- Membership after inserting into the citation set. -/
theorem insertCitation_mem {cs : List String} {c d : String} :
    d ∈ insertCitation cs c ↔ d ∈ cs ∨ d = c := by
  unfold insertCitation
  by_cases hc : c ∈ cs
  · simp only [hc, if_true]
    constructor
    · exact Or.inl
    · rintro (hd | rfl)
      · exact hd
      · exact hc
  · simp [hc]

/-- The citation fold keeps the accumulator deduplicated. -/
theorem citationFold_nodup (response : String) :
    ∀ (srcs : List Retrieved) (acc : List String), acc.Nodup →
      (srcs.foldl (addSourceCitations response) acc).Nodup
  | [], acc, h => h
  | src :: rest, acc, h => by
      refine citationFold_nodup response rest _ ?_
      unfold addSourceCitations
      cases urlCitation response src <;> cases headerCitation response src <;>
        simp <;> repeat' apply insertCitation_nodup
      all_goals exact h

/-- Everything produced by the citation fold is an accumulator entry or a
justified citation. -/
theorem citationFold_sound (response : String) :
    ∀ (srcs : List Retrieved) (acc : List String) (c : String),
      c ∈ srcs.foldl (addSourceCitations response) acc →
      c ∈ acc ∨ Justified response srcs c
  | [], acc, c, h => Or.inl h
  | src :: rest, acc, c, h => by
      rcases citationFold_sound response rest _ c h with hacc | hj
      · unfold addSourceCitations at hacc
        rcases hu : urlCitation response src with _ | u <;>
          rcases hh : headerCitation response src with _ | v <;>
            rw [hu, hh] at hacc <;>
              [skip; skip; skip; rw [insertCitation_mem] at hacc] <;>
              try rw [insertCitation_mem] at hacc
        · exact Or.inl hacc
        · rcases hacc with hacc | rfl
          · exact Or.inl hacc
          · exact Or.inr ⟨src, by simp, Or.inr hh⟩
        · rcases hacc with hacc | rfl
          · exact Or.inl hacc
          · exact Or.inr ⟨src, by simp, Or.inl hu⟩
        · rcases hacc with hacc | rfl
          · rcases hacc with hacc | rfl
            · exact Or.inl hacc
            · exact Or.inr ⟨src, by simp, Or.inl hu⟩
          · exact Or.inr ⟨src, by simp, Or.inr hh⟩
      · obtain ⟨s, hs, hor⟩ := hj
        exact Or.inr ⟨s, by simp [hs], hor⟩

/-- The citation fold never loses accumulator entries. -/
theorem citationFold_mono (response : String) :
    ∀ (srcs : List Retrieved) (acc : List String) (c : String),
      c ∈ acc → c ∈ srcs.foldl (addSourceCitations response) acc
  | [], _, _, h => h
  | src :: rest, acc, c, h => by
      refine citationFold_mono response rest _ c ?_
      unfold addSourceCitations
      cases urlCitation response src <;> cases headerCitation response src <;>
        simp only [insertCitation_mem] <;> tauto

/-- Every justified citation is produced by the citation fold. -/
theorem citationFold_complete (response : String) :
    ∀ (srcs : List Retrieved) (acc : List String) (c : String),
      Justified response srcs c →
      c ∈ srcs.foldl (addSourceCitations response) acc
  | [], _, c, h => by
      obtain ⟨s, hs, _⟩ := h
      simp at hs
  | src :: rest, acc, c, h => by
      obtain ⟨s, hs, hor⟩ := h
      rcases List.mem_cons.mp hs with rfl | hs2
      · refine citationFold_mono response rest _ c ?_
        unfold addSourceCitations
        rcases hor with hu | hh
        · rw [hu]
          cases headerCitation response s <;>
            simp only [insertCitation_mem] <;> tauto
        · rw [hh]
          cases urlCitation response s <;>
            simp only [insertCitation_mem] <;> tauto
      · exact citationFold_complete response rest _ c ⟨s, hs2, hor⟩

/-- C6: `extract_citations` returns a deduplicated list of at most 5
citations, every returned citation is justified by the URL rule (exact URL
verbatim in the answer) or the header rule (header case-insensitively a
substring of the answer), and whenever at most 5 citations match, every
justified citation is returned. -/
theorem c6_holds (response : String) (retrievedContent : List Retrieved) :
    (extract_citations response retrievedContent).length ≤ 5 ∧
      (extract_citations response retrievedContent).Nodup ∧
      (∀ c ∈ extract_citations response retrievedContent,
        Justified response retrievedContent c) ∧
      ((retrievedContent.foldl (addSourceCitations response) []).length ≤ 5 →
        ∀ c, Justified response retrievedContent c →
          c ∈ extract_citations response retrievedContent) := by
  refine ⟨?_, ?_, ?_, ?_⟩
  · exact le_trans (le_of_eq (congrArg List.length rfl)) (by simp [extract_citations])
  · exact (citationFold_nodup response retrievedContent [] (by simp)).sublist
      (List.take_sublist 5 _)
  · intro c hc
    have hc2 : c ∈ retrievedContent.foldl (addSourceCitations response) [] :=
      (List.take_sublist 5 _).mem hc
    rcases citationFold_sound response retrievedContent [] c hc2 with h | h
    · simp at h
    · exact h
  · intro hlen c hj
    unfold extract_citations
    rw [List.take_of_length_le hlen]
    exact citationFold_complete response retrievedContent [] c hj

/-- C6 witness: one source whose URL occurs verbatim in the answer; the
citation set has one element, so the justified citation is returned. -/
theorem c6_witness :
    (([{ content := "c", url := "https://x/a", header := "Guide" }] :
        List Retrieved).foldl (addSourceCitations "see https://x/a now") []).length ≤ 5 ∧
      Justified "see https://x/a now"
        [{ content := "c", url := "https://x/a", header := "Guide" }] "https://x/a" ∧
      "https://x/a" ∈ extract_citations "see https://x/a now"
        [{ content := "c", url := "https://x/a", header := "Guide" }] := by
  have hj : Justified "see https://x/a now"
      [{ content := "c", url := "https://x/a", header := "Guide" }] "https://x/a" :=
    ⟨{ content := "c", url := "https://x/a", header := "Guide" }, by simp, Or.inl (by decide)⟩
  refine ⟨by decide, hj, ?_⟩
  exact (c6_holds "see https://x/a now"
    [{ content := "c", url := "https://x/a", header := "Guide" }]).2.2.2 (by decide)
    "https://x/a" hj

/-- C1 counterexample document: three h1/h2/h3 headings, but the first has
empty text (its chunk is dropped) and the third is nested inside a sibling
`div` of the second (so the second chunk swallows text that appears after
the third heading's boundary). -/
def c1Doc : List Node :=
  [.elem "h1" [], .elem "h1" [.text "A"],
   .elem "div" [.elem "h2" [.text "B"], .text "tail"]]

/-- C1 counterexample: `c1Doc` has 3 headings but yields only 2 chunks, and
the chunk of heading "A" contains the text "tail" even though "tail" appears
after the next heading "B". -/
theorem c1_counterexample :
    (findHeaders (stripScripts c1Doc)).length = 3 ∧
      parse_content c1Doc "u" =
        [{ url := "u", header := "A", content := "A B tail", header_type := "h1" },
         { url := "u", header := "B", content := "B tail", header_type := "h2" }] ∧
      pySubstr "tail" "A B tail" = true := by
  decide

mutual
/-- Whether no h1/h2/h3 element occurs in this node (itself included). -/
def headerFree : Node → Bool
  | .text _ => true
  | .elem name cs => !decide (name ∈ headerNames) && headerFreeList cs
termination_by structural n => n

/-- Whether no h1/h2/h3 element occurs in this list of nodes. -/
def headerFreeList : List Node → Bool
  | [] => true
  | n :: ns => headerFree n && headerFreeList ns
termination_by structural l => l
end

/-- Whether no h1/h2/h3 element occurs strictly below this node. -/
def childrenFree : Node → Bool
  | .text _ => true
  | .elem _ cs => headerFreeList cs

/-- A document all of whose h1/h2/h3 headings sit at the top level, with no
heading nested below a top-level node. -/
def FlatDoc (ns : List Node) : Prop :=
  ∀ n ∈ ns, ((isHeaderElem n && childrenFree n) || headerFree n) = true

/-- Structurally equal nodes agree on being a boundary heading. -/
theorem nodeEq_isHeaderElem (a b : Node) (h : nodeEq a b = true) :
    isHeaderElem a = isHeaderElem b := by
  cases a <;> cases b <;> simp_all [nodeEq, isHeaderElem]

/-- When the next header really is a heading element, the sibling scan stops
exactly at the first h1/h2/h3 sibling: it collects the text of the
`takeWhile` prefix of non-heading siblings. -/
theorem collectContent_eq (nh : Option Node)
    (hnh : ∀ h, nh = some h → isHeaderElem h = true) :
    ∀ tail, collectContent nh tail =
      (tail.takeWhile (fun c => !isHeaderElem c)).map (getTextOf " ")
  | [] => by simp [collectContent]
  | c :: rest => by
      unfold collectContent
      cases nh with
      | none =>
          rcases hc : isHeaderElem c with _ | _ <;>
            simp [List.takeWhile_cons, hc, collectContent_eq none hnh rest]
      | some h =>
          rcases he : nodeEq c h with _ | _
          · rcases hc : isHeaderElem c with _ | _ <;>
              simp [List.takeWhile_cons, hc, he,
                collectContent_eq (some h) hnh rest]
          · have hc : isHeaderElem c = true :=
              (nodeEq_isHeaderElem c h he).trans (hnh h rfl)
            simp [List.takeWhile_cons, hc, he]

/-- The chunk built with a genuine-heading `next_header` equals the chunk
built with no next header: the boundary is the first heading sibling either
way. -/
theorem chunkOf_none_eq (url : String) (hd : Node) (nh : Option Node)
    (tail : List Node) (hnh : ∀ h, nh = some h → isHeaderElem h = true) :
    chunkOf url hd nh tail = chunkOf url hd none tail := by
  unfold chunkOf
  rw [collectContent_eq nh hnh tail, collectContent_eq none (by simp) tail]

/-- The chunk a heading yields on a flat document, spelled out: heading text,
then the space-joined text of the sibling nodes strictly before the first
following heading. -/
def flatChunk (url : String) (p : Node × List Node) : Chunk :=
  { url := url, header := getTextOf "" p.1,
    content := pyStrip (getTextOf "" p.1 ++ " " ++
      pyStrip (pyJoin " "
        ((p.2.takeWhile (fun c => !isHeaderElem c)).map (getTextOf " ")))),
    header_type := nodeName p.1 }

/-- A kept chunk with no next header is exactly `flatChunk`. -/
theorem chunkOf_eq_flatChunk (url : String) (p : Node × List Node)
    (h : (chunkOf url p.1 none p.2).isSome = true) :
    chunkOf url p.1 none p.2 = some (flatChunk url p) := by
  unfold chunkOf at h ⊢
  rw [collectContent_eq none (by simp) p.2] at h ⊢
  by_cases hfc : pyStrip (getTextOf "" p.1 ++ " " ++
      pyStrip (pyJoin " "
        ((p.2.takeWhile (fun c => !isHeaderElem c)).map (getTextOf " ")))) = ""
  · simp [hfc] at h
  · simp only [ne_eq, hfc, not_false_iff, if_true]
    rfl

mutual
/-- Every pair found by `find_all` carries an h1/h2/h3 element. -/
theorem findHeaders_isHeader : ∀ ns : List Node, ∀ p ∈ findHeaders ns,
    isHeaderElem p.1 = true
  | [], p, hp => by simp [findHeaders] at hp
  | n :: ns, p, hp => by
      simp only [findHeaders, List.mem_append] at hp
      rcases hp with (hp | hp) | hp
      · rcases hn : isHeaderElem n with _ | _ <;> rw [hn] at hp <;> simp at hp
        obtain ⟨rfl, rfl⟩ := hp
        exact hn
      · exact findHeadersInside_isHeader n p hp
      · exact findHeaders_isHeader ns p hp

/-- Every pair found strictly inside a node carries an h1/h2/h3 element. -/
theorem findHeadersInside_isHeader : ∀ n : Node, ∀ p ∈ findHeadersInside n,
    isHeaderElem p.1 = true
  | .text _, p, hp => by simp [findHeadersInside] at hp
  | .elem name cs, p, hp =>
      findHeaders_isHeader cs p (by simpa [findHeadersInside] using hp)
end

mutual
/-- A header-free node list contains nothing for `find_all` to find. -/
theorem findHeaders_nil : ∀ ns : List Node, headerFreeList ns = true →
    findHeaders ns = []
  | [], _ => rfl
  | n :: ns, h => by
      have h1 : headerFree n = true := by
        simp only [headerFreeList, Bool.and_eq_true] at h
        exact h.1
      have h2 : headerFreeList ns = true := by
        simp only [headerFreeList, Bool.and_eq_true] at h
        exact h.2
      have hn : isHeaderElem n = false := by
        cases n with
        | text s => rfl
        | elem name cs =>
            simp only [headerFree, Bool.and_eq_true, Bool.not_eq_true'] at h1
            simpa [isHeaderElem] using h1.1
      simp [findHeaders, hn, findHeadersInside_nil n h1, findHeaders_nil ns h2]

/-- A header-free node contains nothing for `find_all` to find. -/
theorem findHeadersInside_nil : ∀ n : Node, headerFree n = true →
    findHeadersInside n = []
  | .text _, _ => rfl
  | .elem name cs, h => by
      simp only [headerFree, Bool.and_eq_true] at h
      simpa [findHeadersInside] using findHeaders_nil cs h.2
end

/-- The top-level headings of a node list, with their sibling tails. -/
def topHeaders : List Node → List (Node × List Node)
  | [] => []
  | n :: ns => (if isHeaderElem n then [(n, ns)] else []) ++ topHeaders ns

/-- On a flat document, `find_all` finds exactly the top-level headings. -/
theorem findHeaders_flat : ∀ ns : List Node, FlatDoc ns →
    findHeaders ns = topHeaders ns
  | [], _ => rfl
  | n :: ns, h => by
      have hn := h n (by simp)
      have hns : FlatDoc ns := fun m hm => h m (by simp [hm])
      have hin : findHeadersInside n = [] := by
        rcases (Bool.or_eq_true _ _).mp hn with h1 | h1
        · simp only [Bool.and_eq_true] at h1
          cases n with
          | text s => rfl
          | elem name cs =>
              simpa [findHeadersInside, childrenFree] using
                findHeaders_nil cs h1.2
        · exact findHeadersInside_nil n h1
      simp [findHeaders, topHeaders, hin, findHeaders_flat ns hns]

/-- The first heading found splits the list: everything before it is
non-heading, and its sibling tail is the remainder of the list. -/
theorem topHeaders_head_split : ∀ ns : List Node, ∀ p : Node × List Node,
    (topHeaders ns).head? = some p →
    ns.takeWhile (fun c => !isHeaderElem c) ++ p.1 :: p.2 = ns
  | [], p, hp => by simp [topHeaders] at hp
  | n :: ns, p, hp => by
      rcases hn : isHeaderElem n with _ | _
      · simp only [topHeaders, hn, if_false, List.nil_append] at hp
        have := topHeaders_head_split ns p hp
        simp [List.takeWhile_cons, hn, this]
      · simp only [topHeaders, hn, if_true, List.singleton_append,
          List.head?_cons, Option.some_inj] at hp
        subst hp
        simp [List.takeWhile_cons, hn]

/-- Consecutive headings: each heading's sibling tail is its boundary-limited
content segment followed by the next heading and that heading's own tail, so
nothing at or after the next heading contributes to the chunk. -/
theorem topHeaders_chain : ∀ ns : List Node,
    List.Chain' (fun p q : Node × List Node =>
      p.2.takeWhile (fun c => !isHeaderElem c) ++ q.1 :: q.2 = p.2)
      (topHeaders ns)
  | [] => List.chain'_nil
  | n :: ns => by
      rcases hn : isHeaderElem n with _ | _
      · rw [show topHeaders (n :: ns) = topHeaders ns by simp [topHeaders, hn]]
        exact topHeaders_chain ns
      · simp only [topHeaders, hn, if_true, List.singleton_append]
        rw [List.chain'_cons']
        exact ⟨fun q hq => topHeaders_head_split ns q hq, topHeaders_chain ns⟩

/-- When every heading's chunk is kept, the header loop produces exactly one
`flatChunk` per heading, in order. -/
theorem chunksFromHeaders_eq (url : String) : ∀ hs : List (Node × List Node),
    (∀ p ∈ hs, isHeaderElem p.1 = true) →
    (∀ p ∈ hs, (chunkOf url p.1 none p.2).isSome = true) →
    chunksFromHeaders url hs = hs.map (flatChunk url)
  | [], _, _ => rfl
  | (h, tail) :: rest, hhead, hsome => by
      have hnh : ∀ x, rest.head?.map Prod.fst = some x → isHeaderElem x = true := by
        intro x hx
        cases hr : rest.head? with
        | none => rw [hr] at hx; simp at hx
        | some q =>
            rw [hr] at hx
            simp only [Option.map_some', Option.some_inj] at hx
            subst hx
            exact hhead q (by
              cases rest with
              | nil => simp at hr
              | cons a l =>
                  simp only [List.head?_cons, Option.some_inj] at hr
                  simp [hr])
      have h1 : chunkOf url h (rest.head?.map Prod.fst) tail =
          some (flatChunk url (h, tail)) := by
        rw [chunkOf_none_eq url h _ tail hnh]
        exact chunkOf_eq_flatChunk url (h, tail) (hsome (h, tail) (by simp))
      simp only [chunksFromHeaders, h1, Option.toList_some, List.singleton_append,
        List.map_cons]
      exact congrArg _ (chunksFromHeaders_eq url rest
        (fun p hp => hhead p (by simp [hp]))
        (fun p hp => hsome p (by simp [hp])))

/-- C1 (amended): for a document whose h1/h2/h3 headings (n >= 1 of them) all
sit at the top level with no heading nested below another top-level node,
and whose headings each yield a nonempty chunk, `parse_content` produces
exactly n chunks, one per heading in document order; each chunk's content is
the heading text joined with the text of the sibling nodes strictly before
the first following heading, and the chain property shows that segment ends
exactly where the next heading starts, so no chunk content comes from text
at or after the next heading boundary.  (Without these side conditions the
original claim fails, see the counterexample: empty-text headings are
dropped, and a heading nested inside a sibling subtree does not stop the
scan.) -/
theorem c1_amended (doc : List Node) (url : String)
    (hflat : FlatDoc (stripScripts doc))
    (hne : (findHeaders (stripScripts doc)).isEmpty = false)
    (hchunks : ∀ p ∈ findHeaders (stripScripts doc),
      (chunkOf url p.1 none p.2).isSome = true) :
    parse_content doc url = (findHeaders (stripScripts doc)).map (flatChunk url) ∧
      (parse_content doc url).length = (findHeaders (stripScripts doc)).length ∧
      List.Chain' (fun p q : Node × List Node =>
        p.2.takeWhile (fun c => !isHeaderElem c) ++ q.1 :: q.2 = p.2)
        (findHeaders (stripScripts doc)) := by
  have hmap : parse_content doc url =
      (findHeaders (stripScripts doc)).map (flatChunk url) := by
    unfold parse_content
    simp only [hne, Bool.false_eq_true, if_false]
    exact chunksFromHeaders_eq url (findHeaders (stripScripts doc))
      (findHeaders_isHeader (stripScripts doc)) hchunks
  refine ⟨hmap, by simp [hmap], ?_⟩
  rw [findHeaders_flat (stripScripts doc) hflat]
  exact topHeaders_chain (stripScripts doc)

/-- C1 amended witness: a flat two-heading page yields exactly two chunks in
document order with boundary-limited contents. -/
theorem c1_witness :
    FlatDoc (stripScripts [.elem "h1" [.text "A"], .text "x",
        .elem "h2" [.text "B"], .text "y"]) ∧
      (findHeaders (stripScripts [.elem "h1" [.text "A"], .text "x",
        .elem "h2" [.text "B"], .text "y"])).isEmpty = false ∧
      parse_content [.elem "h1" [.text "A"], .text "x",
          .elem "h2" [.text "B"], .text "y"] "u" =
        (findHeaders (stripScripts [.elem "h1" [.text "A"], .text "x",
          .elem "h2" [.text "B"], .text "y"])).map (flatChunk "u") := by
  refine ⟨?_, by decide, ?_⟩
  · intro n hn
    fin_cases hn <;> decide
  · exact (c1_amended [.elem "h1" [.text "A"], .text "x",
      .elem "h2" [.text "B"], .text "y"] "u"
      (by intro n hn; fin_cases hn <;> decide) (by decide) (by decide)).1



/-! ## Crawler lemmas -/

/-- Membership in one href's contribution, unfolded. -/
theorem linkCandidate_mem (cfg : CrawlConfig) (visited : List String)
    (current href u : String) :
    u ∈ linkCandidate cfg visited current href ↔
      skipHref href = false ∧ u = cfg.joinUrl current href ∧
        pyStartsWith u cfg.baseDomain = true ∧ matchesExcluded u = false ∧
        u ∉ visited := by
  unfold linkCandidate
  by_cases h1 : skipHref href = true
  · rw [if_pos h1]
    simp [h1]
  · have h1f : skipHref href = false := by simpa using h1
    rw [if_neg h1]
    by_cases h2 : pyStartsWith (cfg.joinUrl current href) cfg.baseDomain = true
    · rw [if_pos h2]
      by_cases h3 : matchesExcluded (cfg.joinUrl current href) = false ∧
          cfg.joinUrl current href ∉ visited
      · rw [if_pos h3]
        simp only [List.mem_singleton]
        constructor
        · rintro rfl
          exact ⟨h1f, rfl, h2, h3.1, h3.2⟩
        · rintro ⟨_, rfl, _⟩
          rfl
      · rw [if_neg h3]
        simp only [List.not_mem_nil, false_iff, not_and]
        rintro _ rfl _ hexcl hvis
        exact h3 ⟨hexcl, hvis⟩
    · rw [if_neg h2]
      simp only [List.not_mem_nil, false_iff, not_and]
      rintro _ rfl h2t
      exact (h2 h2t).elim

/-- Skipped hrefs (anchor-only, mailto:, tel:, absolute http(s), empty) are
discarded: the link loop queues the same URLs with them removed. -/
theorem processLinks_filter (cfg : CrawlConfig) (visited : List String)
    (current : String) :
    ∀ hrefs, processLinks cfg visited current hrefs =
      processLinks cfg visited current (hrefs.filter (fun h => !skipHref h))
  | [] => rfl
  | href :: rest => by
      have ih := processLinks_filter cfg visited current rest
      rcases hs : skipHref href with _ | _
      · simp only [processLinks] at ih ⊢
        simp [List.filter_cons, hs, ih]
      · have hcand : linkCandidate cfg visited current href = [] := by
          unfold linkCandidate
          rw [if_pos hs]
        simp only [processLinks] at ih ⊢
        simp [List.filter_cons, hs, hcand, ih]

/-- Everything the link loop queues comes from a surviving href: it is the
join of a non-skipped href, same-domain, not blacklist-matched, and not yet
visited. -/
theorem processLinks_sub (cfg : CrawlConfig) (visited : List String)
    (current : String) (hrefs : List String) (u : String)
    (hu : u ∈ processLinks cfg visited current hrefs) :
    ∃ h ∈ hrefs, skipHref h = false ∧ u = cfg.joinUrl current h ∧
      pyStartsWith u cfg.baseDomain = true ∧ matchesExcluded u = false ∧
      u ∉ visited := by
  obtain ⟨h, hh, hc⟩ := List.mem_flatMap.mp hu
  exact ⟨h, hh, (linkCandidate_mem cfg visited current h u).mp hc⟩

/-- A surviving, same-domain, non-blacklisted, unvisited join is queued. -/
theorem processLinks_mem (cfg : CrawlConfig) (visited : List String)
    (current : String) (hrefs : List String) (h : String) (hh : h ∈ hrefs)
    (hskip : skipHref h = false)
    (hdom : pyStartsWith (cfg.joinUrl current h) cfg.baseDomain = true)
    (hexcl : matchesExcluded (cfg.joinUrl current h) = false)
    (hvis : cfg.joinUrl current h ∉ visited) :
    cfg.joinUrl current h ∈ processLinks cfg visited current hrefs :=
  List.mem_flatMap.mpr ⟨h, hh,
    (linkCandidate_mem cfg visited current h _).mpr ⟨hskip, rfl, hdom, hexcl, hvis⟩⟩

/-- The link loop queues at most one URL per href. -/
theorem processLinks_length (cfg : CrawlConfig) (visited : List String)
    (current : String) :
    ∀ hrefs, (processLinks cfg visited current hrefs).length ≤ hrefs.length
  | [] => le_refl 0
  | href :: rest => by
      have ih := processLinks_length cfg visited current rest
      have hc : (linkCandidate cfg visited current href).length ≤ 1 := by
        unfold linkCandidate
        by_cases h1 : skipHref href = true
        · rw [if_pos h1]
          simp
        · rw [if_neg h1]
          by_cases h2 : pyStartsWith (cfg.joinUrl current href) cfg.baseDomain = true
          · rw [if_pos h2]
            by_cases h3 : matchesExcluded (cfg.joinUrl current href) = false ∧
                cfg.joinUrl current href ∉ visited
            · rw [if_pos h3]
              simp
            · rw [if_neg h3]
              simp
          · rw [if_neg h2]
            simp
      simp only [processLinks, List.flatMap_cons, List.length_append,
        List.length_cons]
      simp only [processLinks] at ih
      omega

/-- A successful site lookup exhibits a site entry. -/
theorem siteLookup_mem : ∀ (s : List (String × List String)) (k : String)
    (v : List String), siteLookup s k = some v → (k, v) ∈ s
  | [], k, v, h => by simp [siteLookup] at h
  | (u, hs) :: rest, k, v, h => by
      by_cases hk : u = k
      · subst hk
        have h2 : some hs = some v := by simpa [siteLookup] using h
        cases h2
        simp
      · have h2 : siteLookup rest k = some v := by simpa [siteLookup, hk] using h
        exact List.mem_cons_of_mem _ (siteLookup_mem rest k v h2)

/-- One unrolled iteration of the crawl loop on a nonempty queue. -/
theorem crawlLoop_cons (cfg : CrawlConfig) (fuel : Nat) (vis pages : List String)
    (current : String) (rest : List String) :
    crawlLoop cfg (fuel + 1) { visited := vis, pages := pages, queue := current :: rest } =
      if current ∈ vis then
        crawlLoop cfg fuel { visited := vis, pages := pages, queue := rest }
      else
        match siteLookup cfg.site current with
        | none => crawlLoop cfg fuel
            { visited := vis ++ [current], pages := pages, queue := rest }
        | some hrefs => crawlLoop cfg fuel
            { visited := vis ++ [current], pages := pages ++ [current],
              queue := rest ++ processLinks cfg (vis ++ [current]) current hrefs } := rfl

/-- Crawl step on an empty queue: the loop exits with the current state. -/
theorem crawlLoop_nil (cfg : CrawlConfig) (fuel : Nat) (vis pages : List String) :
    crawlLoop cfg (fuel + 1) { visited := vis, pages := pages, queue := [] } =
      some { visited := vis, pages := pages, queue := [] } := rfl

/-- C3 counterexample configuration: the seed itself matches the `/api/`
blacklist pattern. -/
def c3Cfg : CrawlConfig :=
  { baseUrl := "https://x.com/api/", baseDomain := "https://x.com",
    joinUrl := fun _ h => h, site := [("https://x.com/api/", [])] }

/-- C3 counterexample: the seed URL matches an excluded pattern, yet the crawl
visits it and returns it as a page — the exclusion checks of lines 116-136
apply only to discovered links, never to the seed. -/
theorem c3_counterexample :
    matchesExcluded c3Cfg.baseUrl = true ∧
      crawlLoop c3Cfg 1 (initState c3Cfg) =
        some { visited := ["https://x.com/api/"], pages := ["https://x.com/api/"],
               queue := [] } := by
  constructor
  · decide
  · rfl

/-- Exclusion invariant: every URL recorded anywhere in the crawl state is the
seed or blacklist-free. -/
def ExclInv (cfg : CrawlConfig) (st : CrawlState) : Prop :=
  (∀ u ∈ st.visited, u = cfg.baseUrl ∨ matchesExcluded u = false) ∧
    (∀ u ∈ st.pages, u = cfg.baseUrl ∨ matchesExcluded u = false) ∧
    (∀ u ∈ st.queue, u = cfg.baseUrl ∨ matchesExcluded u = false)

/-- The crawl loop preserves the exclusion invariant. -/
theorem exclInv_crawlLoop (cfg : CrawlConfig) :
    ∀ (fuel : Nat) (st st' : CrawlState), ExclInv cfg st →
      crawlLoop cfg fuel st = some st' → ExclInv cfg st'
  | 0, st, st', hinv, h => by
      unfold crawlLoop at h
      split at h
      · cases h
        exact hinv
      · cases h
  | fuel + 1, ⟨vis, pages, queue⟩, st', hinv, h => by
      obtain ⟨hv, hp, hq⟩ := hinv
      cases queue with
      | nil =>
          rw [crawlLoop_nil] at h
          cases h
          exact ⟨hv, hp, hq⟩
      | cons current rest =>
          rw [crawlLoop_cons] at h
          have hcur : current = cfg.baseUrl ∨ matchesExcluded current = false :=
            hq current (by simp)
          have hrest : ∀ u ∈ rest, u = cfg.baseUrl ∨ matchesExcluded u = false :=
            fun u hu => hq u (List.mem_cons_of_mem _ hu)
          have hv2 : ∀ u ∈ vis ++ [current],
              u = cfg.baseUrl ∨ matchesExcluded u = false := by
            intro u hu
            rcases List.mem_append.mp hu with hu | hu
            · exact hv u hu
            · simp only [List.mem_singleton] at hu
              subst hu
              exact hcur
          by_cases hvis : current ∈ vis
          · rw [if_pos hvis] at h
            exact exclInv_crawlLoop cfg fuel
              { visited := vis, pages := pages, queue := rest } st'
              ⟨hv, hp, hrest⟩ h
          · rw [if_neg hvis] at h
            cases hlook : siteLookup cfg.site current with
            | none =>
                rw [hlook] at h
                exact exclInv_crawlLoop cfg fuel
                  { visited := vis ++ [current], pages := pages, queue := rest } st'
                  ⟨hv2, hp, hrest⟩ h
            | some hrefs =>
                rw [hlook] at h
                refine exclInv_crawlLoop cfg fuel
                  { visited := vis ++ [current], pages := pages ++ [current],
                    queue := rest ++ processLinks cfg (vis ++ [current]) current hrefs }
                  st' ⟨hv2, ?_, ?_⟩ h
                · intro u hu
                  rcases List.mem_append.mp hu with hu | hu
                  · exact hp u hu
                  · simp only [List.mem_singleton] at hu
                    subst hu
                    exact hcur
                · intro u hu
                  rcases List.mem_append.mp hu with hu | hu
                  · exact hrest u hu
                  · obtain ⟨_, _, _, _, _, hexcl, _⟩ :=
                      processLinks_sub cfg _ current hrefs u hu
                    exact Or.inr hexcl

/-- C3 (amended): anchor-only, mailto:, tel:, absolute-http(s) and empty
hrefs are never queued (the link loop behaves as if they were filtered out);
every URL the link loop queues is same-domain, blacklist-free and unvisited;
and no URL other than the seed that matches an excluded pattern ever enters
the visited set or the returned page list.  (The seed itself bypasses every
check, see the counterexample.) -/
theorem c3_amended (cfg : CrawlConfig) :
    (∀ visited current hrefs,
      processLinks cfg visited current hrefs =
        processLinks cfg visited current (hrefs.filter (fun h => !skipHref h))) ∧
      (∀ visited current hrefs, ∀ u ∈ processLinks cfg visited current hrefs,
        matchesExcluded u = false ∧ pyStartsWith u cfg.baseDomain = true ∧
          u ∉ visited) ∧
      (∀ fuel st', crawlLoop cfg fuel (initState cfg) = some st' →
        ∀ u, u ∈ st'.visited ∨ u ∈ st'.pages →
          u = cfg.baseUrl ∨ matchesExcluded u = false) := by
  refine ⟨processLinks_filter cfg, ?_, ?_⟩
  · intro visited current hrefs u hu
    obtain ⟨_, _, _, _, hdom, hexcl, hvis⟩ :=
      processLinks_sub cfg visited current hrefs u hu
    exact ⟨hexcl, hdom, hvis⟩
  · intro fuel st' hrun u hu
    have hinit : ExclInv cfg (initState cfg) := by
      refine ⟨by simp [initState], by simp [initState], ?_⟩
      intro u hu
      simp only [initState, List.mem_singleton] at hu
      exact Or.inl hu
    obtain ⟨hv, hp, _⟩ := exclInv_crawlLoop cfg fuel _ st' hinit hrun
    exact hu.elim (hv u) (hp u)

/-- C3 witness configuration: a clean seed with one good link, one anchor
link and one blacklisted link. -/
def c3W : CrawlConfig :=
  { baseUrl := "https://x.com/", baseDomain := "https://x.com",
    joinUrl := fun _ h => "https://x.com" ++ h,
    site := [("https://x.com/", ["/docs", "#frag", "/api/secret"])] }

/-- C3 witness: on the concrete site only `/docs` is queued; the crawl
completes and every visited or returned URL is the seed or blacklist-free. -/
theorem c3_witness :
    processLinks c3W ["https://x.com/"] "https://x.com/"
        ["/docs", "#frag", "/api/secret"] = ["https://x.com/docs"] ∧
      crawlLoop c3W 3 (initState c3W) =
        some { visited := ["https://x.com/", "https://x.com/docs"],
               pages := ["https://x.com/"], queue := [] } ∧
      ("https://x.com/docs" = c3W.baseUrl ∨
        matchesExcluded "https://x.com/docs" = false) := by
  refine ⟨by decide, by decide, ?_⟩
  exact (c3_amended c3W).2.2 3
    { visited := ["https://x.com/", "https://x.com/docs"],
      pages := ["https://x.com/"], queue := [] }
    (by decide) "https://x.com/docs" (Or.inl (by decide))

/-! ## Crawler termination (C4) -/

/-- Every URL the crawl can ever enqueue: the seed, plus the join of any
page's href against that page. -/
def crawlUniverse (cfg : CrawlConfig) : List String :=
  cfg.baseUrl :: cfg.site.flatMap (fun p => p.2.map (cfg.joinUrl p.1))

/-- An upper bound on the number of hrefs any fetched page can yield. -/
def maxOut (cfg : CrawlConfig) : Nat :=
  cfg.site.foldr (fun p m => max p.2.length m) 0

/-- Any site entry's href list is bounded by `maxOut`. -/
theorem maxOut_bound : ∀ (s : List (String × List String)) (k : String)
    (v : List String), (k, v) ∈ s →
    v.length ≤ s.foldr (fun p m => max p.2.length m) 0
  | [], _, _, h => absurd h (List.not_mem_nil _)
  | (u, hs) :: rest, k, v, h => by
      rcases List.mem_cons.mp h with heq | hmem
      · obtain ⟨rfl, rfl⟩ := Prod.mk.injEq .. ▸ heq
        exact le_max_left _ _
      · exact le_trans (maxOut_bound rest k v hmem) (le_max_right _ _)

/-- The number of universe entries not yet visited. -/
def unvisitedCount (U visited : List String) : Nat :=
  (U.filter (fun u => decide (u ∉ visited))).length

/-- Marking one more URL visited never increases the unvisited count. -/
theorem unvisitedCount_concat_le (visited : List String) (current : String) :
    ∀ U : List String,
      unvisitedCount U (visited ++ [current]) ≤ unvisitedCount U visited
  | [] => le_refl 0
  | x :: U => by
      have ih := unvisitedCount_concat_le visited current U
      by_cases h1 : x ∉ visited ++ [current]
      · have h2 : x ∉ visited := fun hx => h1 (List.mem_append.mpr (Or.inl hx))
        have h3 : x ≠ current := fun hx =>
          h1 (List.mem_append.mpr (Or.inr (by simp [hx])))
        simp [unvisitedCount, List.filter_cons, h2, h3] at ih ⊢
        omega
      · have hmem : x ∈ visited ++ [current] := not_not.mp h1
        by_cases h2 : x ∈ visited
        · simp [unvisitedCount, List.filter_cons, h2] at ih ⊢
          omega
        · have hxc : x = current := by
            rcases List.mem_append.mp hmem with h | h
            · exact absurd h h2
            · simpa using h
          subst hxc
          simp [unvisitedCount, List.filter_cons, h2] at ih ⊢
          omega

/-- Marking a fresh universe URL visited strictly decreases the unvisited
count. -/
theorem unvisitedCount_concat_lt (visited : List String) (current : String)
    (hv : current ∉ visited) :
    ∀ U : List String, current ∈ U →
      unvisitedCount U (visited ++ [current]) < unvisitedCount U visited
  | [], hU => absurd hU (List.not_mem_nil _)
  | x :: U, hU => by
      by_cases hx : x = current
      · subst hx
        have hle := unvisitedCount_concat_le visited x U
        simp [unvisitedCount, List.filter_cons, hv] at hle ⊢
        omega
      · have hU2 : current ∈ U := by
          rcases List.mem_cons.mp hU with h | h
          · exact absurd h.symm hx
          · exact h
        have ih := unvisitedCount_concat_lt visited current hv U hU2
        by_cases h2 : x ∈ visited
        · simp [unvisitedCount, List.filter_cons, h2] at ih ⊢
          omega
        · simp [unvisitedCount, List.filter_cons, h2, hx] at ih ⊢
          omega

/-- Decreasing measure for the crawl loop: unvisited universe URLs weighted
by the maximal enqueue burst, plus the queue length. -/
def crawlMeasure (cfg : CrawlConfig) (st : CrawlState) : Nat :=
  unvisitedCount (crawlUniverse cfg) st.visited * (maxOut cfg + 1) + st.queue.length

/-- With fuel above the measure, the crawl loop reaches an empty queue: the
crawl terminates on every finite site graph, cyclic links included. -/
theorem crawlLoop_terminates (cfg : CrawlConfig) :
    ∀ (fuel : Nat) (st : CrawlState), (∀ u ∈ st.queue, u ∈ crawlUniverse cfg) →
      crawlMeasure cfg st < fuel → (crawlLoop cfg fuel st).isSome = true
  | 0, st, _, hm => absurd hm (Nat.not_lt_zero _)
  | fuel + 1, ⟨vis, pages, queue⟩, hq, hm => by
      cases queue with
      | nil =>
          rw [crawlLoop_nil]
          rfl
      | cons current rest =>
          rw [crawlLoop_cons]
          have hcur : current ∈ crawlUniverse cfg := hq current (by simp)
          have hrest : ∀ u ∈ rest, u ∈ crawlUniverse cfg :=
            fun u hu => hq u (List.mem_cons_of_mem _ hu)
          by_cases hvis : current ∈ vis
          · rw [if_pos hvis]
            apply crawlLoop_terminates cfg fuel
              { visited := vis, pages := pages, queue := rest } hrest
            simp only [crawlMeasure, List.length_cons] at hm ⊢
            omega
          · rw [if_neg hvis]
            have hlt := unvisitedCount_concat_lt vis current hvis
              (crawlUniverse cfg) hcur
            have hmul : unvisitedCount (crawlUniverse cfg) (vis ++ [current]) *
                  (maxOut cfg + 1) + (maxOut cfg + 1) ≤
                unvisitedCount (crawlUniverse cfg) vis * (maxOut cfg + 1) := by
              have h2 : unvisitedCount (crawlUniverse cfg) (vis ++ [current]) + 1 ≤
                  unvisitedCount (crawlUniverse cfg) vis := hlt
              calc unvisitedCount (crawlUniverse cfg) (vis ++ [current]) *
                      (maxOut cfg + 1) + (maxOut cfg + 1)
                  = (unvisitedCount (crawlUniverse cfg) (vis ++ [current]) + 1) *
                      (maxOut cfg + 1) := by ring
                _ ≤ unvisitedCount (crawlUniverse cfg) vis * (maxOut cfg + 1) :=
                      Nat.mul_le_mul_right _ h2
            cases hlook : siteLookup cfg.site current with
            | none =>
                apply crawlLoop_terminates cfg fuel
                  { visited := vis ++ [current], pages := pages, queue := rest } hrest
                simp only [crawlMeasure, List.length_cons] at hm ⊢
                omega
            | some hrefs =>
                have hmem := siteLookup_mem cfg.site current hrefs hlook
                apply crawlLoop_terminates cfg fuel
                  { visited := vis ++ [current], pages := pages ++ [current],
                    queue := rest ++ processLinks cfg (vis ++ [current]) current hrefs }
                · intro u hu
                  rcases List.mem_append.mp hu with hu | hu
                  · exact hrest u hu
                  · obtain ⟨h, hh, _, rfl, _, _, _⟩ :=
                      processLinks_sub cfg _ current hrefs u hu
                    exact List.mem_cons_of_mem _ (List.mem_flatMap.mpr
                      ⟨(current, hrefs), hmem, List.mem_map.mpr ⟨h, hh, rfl⟩⟩)
                · have hplen : (processLinks cfg (vis ++ [current]) current hrefs).length ≤
                      maxOut cfg :=
                    le_trans (processLinks_length cfg _ current hrefs)
                      (maxOut_bound cfg.site current hrefs hmem)
                  simp only [crawlMeasure, List.length_cons, List.length_append] at hm ⊢
                  omega

/-- Appending a fresh element preserves `Nodup`. -/
theorem nodup_concat_of {α : Type} {l : List α} {a : α} (h : l.Nodup)
    (ha : a ∉ l) : (l ++ [a]).Nodup := by
  simp [List.nodup_append, h, ha]

/-- A run of `crawlLoop` only returns once the queue is empty. -/
theorem crawlLoop_queue_nil (cfg : CrawlConfig) :
    ∀ (fuel : Nat) (st st' : CrawlState),
      crawlLoop cfg fuel st = some st' → st'.queue = []
  | 0, st, st', h => by
      unfold crawlLoop at h
      split at h
      · cases h
        exact List.isEmpty_iff.mp (by assumption)
      · cases h
  | fuel + 1, ⟨vis, pages, queue⟩, st', h => by
      cases queue with
      | nil =>
          rw [crawlLoop_nil] at h
          cases h
          rfl
      | cons current rest =>
          rw [crawlLoop_cons] at h
          by_cases hvis : current ∈ vis
          · rw [if_pos hvis] at h
            exact crawlLoop_queue_nil cfg fuel _ st' h
          · rw [if_neg hvis] at h
            cases hlook : siteLookup cfg.site current with
            | none =>
                rw [hlook] at h
                exact crawlLoop_queue_nil cfg fuel _ st' h
            | some hrefs =>
                rw [hlook] at h
                exact crawlLoop_queue_nil cfg fuel _ st' h

/-- Functional invariant of the crawl loop: everything recorded is reachable,
nothing is recorded twice, the frontier covers all unexplored edges, the seed
is processed first, and page records come from visited URLs. -/
structure CrawlInv (cfg : CrawlConfig) (st : CrawlState) : Prop where
  visited_reach : ∀ u ∈ st.visited, Reachable cfg u
  queue_reach : ∀ u ∈ st.queue, Reachable cfg u
  visited_nodup : st.visited.Nodup
  closed : ∀ u ∈ st.visited, ∀ v, CrawlEdge cfg u v → v ∈ st.visited ∨ v ∈ st.queue
  seed_in : cfg.baseUrl ∈ st.visited ∨ cfg.baseUrl ∈ st.queue
  head_seed : (st.visited = [] ∧ st.queue = [cfg.baseUrl]) ∨
    st.visited.head? = some cfg.baseUrl
  pages_sub : ∀ u ∈ st.pages, u ∈ st.visited
  pages_nodup : st.pages.Nodup

/-- The crawl loop preserves the functional invariant. -/
theorem crawlInv_crawlLoop (cfg : CrawlConfig) :
    ∀ (fuel : Nat) (st st' : CrawlState), CrawlInv cfg st →
      crawlLoop cfg fuel st = some st' → CrawlInv cfg st'
  | 0, st, st', hinv, h => by
      unfold crawlLoop at h
      split at h
      · cases h
        exact hinv
      · cases h
  | fuel + 1, ⟨vis, pages, queue⟩, st', hinv, h => by
      obtain ⟨hvr, hqr, hnd, hcl, hsi, hhs, hps, hpn⟩ := hinv
      cases queue with
      | nil =>
          rw [crawlLoop_nil] at h
          cases h
          exact ⟨hvr, hqr, hnd, hcl, hsi, hhs, hps, hpn⟩
      | cons current rest =>
          rw [crawlLoop_cons] at h
          have hcr : Reachable cfg current := hqr current (by simp)
          have hrr : ∀ u ∈ rest, Reachable cfg u :=
            fun u hu => hqr u (List.mem_cons_of_mem _ hu)
          by_cases hvis : current ∈ vis
          · rw [if_pos hvis] at h
            refine crawlInv_crawlLoop cfg fuel
              { visited := vis, pages := pages, queue := rest } st'
              ⟨hvr, hrr, hnd, ?_, ?_, ?_, hps, hpn⟩ h
            · intro u hu v hedge
              rcases hcl u hu v hedge with hv | hv
              · exact Or.inl hv
              · rcases List.mem_cons.mp hv with rfl | hv
                · exact Or.inl hvis
                · exact Or.inr hv
            · rcases hsi with hs | hs
              · exact Or.inl hs
              · rcases List.mem_cons.mp hs with rfl | hs
                · exact Or.inl hvis
                · exact Or.inr hs
            · rcases hhs with ⟨he, _⟩ | hh
              · have hev : vis = [] := he
                rw [hev] at hvis
                exact absurd hvis (List.not_mem_nil _)
              · exact Or.inr hh
          · rw [if_neg hvis] at h
            have hvr2 : ∀ u ∈ vis ++ [current], Reachable cfg u := by
              intro u hu
              rcases List.mem_append.mp hu with hu | hu
              · exact hvr u hu
              · simp only [List.mem_singleton] at hu
                subst hu
                exact hcr
            have hnd2 : (vis ++ [current]).Nodup := nodup_concat_of hnd hvis
            have hseed2 : cfg.baseUrl ∈ vis ++ [current] ∨ cfg.baseUrl ∈ rest := by
              rcases hsi with hs | hs
              · exact Or.inl (List.mem_append.mpr (Or.inl hs))
              · rcases List.mem_cons.mp hs with rfl | hs
                · exact Or.inl (List.mem_append.mpr (Or.inr (by simp)))
                · exact Or.inr hs
            have hhs2 : (vis ++ [current]).head? = some cfg.baseUrl := by
              rcases hhs with ⟨he, hq⟩ | hh
              · have hqe : current :: rest = [cfg.baseUrl] := hq
                have hev : vis = [] := he
                rw [hev, (List.cons.inj hqe).1]
                rfl
              · cases vis with
                | nil => simp at hh
                | cons a l => simpa using hh
            have hps2 : ∀ u ∈ pages, u ∈ vis ++ [current] :=
              fun u hu => List.mem_append.mpr (Or.inl (hps u hu))
            cases hlook : siteLookup cfg.site current with
            | none =>
                rw [hlook] at h
                refine crawlInv_crawlLoop cfg fuel
                  { visited := vis ++ [current], pages := pages, queue := rest } st'
                  ⟨hvr2, hrr, hnd2, ?_, ?_, Or.inr hhs2, hps2, hpn⟩ h
                · intro u hu v hedge
                  rcases List.mem_append.mp hu with hu | hu
                  · rcases hcl u hu v hedge with hv | hv
                    · exact Or.inl (List.mem_append.mpr (Or.inl hv))
                    · rcases List.mem_cons.mp hv with rfl | hv
                      · exact Or.inl (List.mem_append.mpr (Or.inr (by simp)))
                      · exact Or.inr hv
                  · simp only [List.mem_singleton] at hu
                    subst hu
                    obtain ⟨hrefs, _, hlook2, _⟩ := hedge
                    rw [hlook] at hlook2
                    cases hlook2
                · rcases hseed2 with hs | hs
                  · exact Or.inl hs
                  · exact Or.inr hs
            | some hrefs =>
                rw [hlook] at h
                refine crawlInv_crawlLoop cfg fuel
                  { visited := vis ++ [current], pages := pages ++ [current],
                    queue := rest ++ processLinks cfg (vis ++ [current]) current hrefs }
                  st' ⟨hvr2, ?_, hnd2, ?_, ?_, Or.inr hhs2, ?_, ?_⟩ h
                · intro u hu
                  rcases List.mem_append.mp hu with hu | hu
                  · exact hrr u hu
                  · obtain ⟨lh, hlh, hskip, rfl, hdom, hexcl, _⟩ :=
                      processLinks_sub cfg _ current hrefs u hu
                    exact Relation.ReflTransGen.tail hcr
                      ⟨hrefs, lh, hlook, hlh, hskip, rfl, hdom, hexcl⟩
                · intro u hu v hedge
                  rcases List.mem_append.mp hu with hu | hu
                  · rcases hcl u hu v hedge with hv | hv
                    · exact Or.inl (List.mem_append.mpr (Or.inl hv))
                    · rcases List.mem_cons.mp hv with rfl | hv
                      · exact Or.inl (List.mem_append.mpr (Or.inr (by simp)))
                      · exact Or.inr (List.mem_append.mpr (Or.inl hv))
                  · simp only [List.mem_singleton] at hu
                    subst hu
                    obtain ⟨hrefs2, lh, hlook2, hlh, hskip, hjoin, hdom, hexcl⟩ := hedge
                    rw [hlook] at hlook2
                    cases hlook2
                    by_cases hvin : v ∈ vis ++ [u]
                    · exact Or.inl hvin
                    · subst hjoin
                      exact Or.inr (List.mem_append.mpr (Or.inr
                        (processLinks_mem cfg _ u hrefs lh hlh hskip hdom
                          hexcl hvin)))
                · rcases hseed2 with hs | hs
                  · exact Or.inl hs
                  · exact Or.inr (List.mem_append.mpr (Or.inl hs))
                · intro u hu
                  rcases List.mem_append.mp hu with hu | hu
                  · exact hps2 u hu
                  · simp only [List.mem_singleton] at hu
                    subst hu
                    exact List.mem_append.mpr (Or.inr (by simp))
                · exact nodup_concat_of hpn (fun hc => hvis (hps current hc))

/-- C4: on every finite site graph — cyclic links included — the crawl loop
terminates with an empty queue; the seed is the first URL processed; the
visited list has no duplicates (each URL is fetched at most once); and the
visited set is exactly the set of URLs reachable from the seed through
links that survive the skip/domain/blacklist filters.  Page records are
deduplicated visited URLs.  The loop itself pops from the front of the FIFO
queue and appends discovered links at the back (breadth-first order, seed
first), as `crawlLoop_cons` exhibits. -/
theorem c4_holds (cfg : CrawlConfig) :
    ∃ (fuel : Nat) (st : CrawlState),
      crawlLoop cfg fuel (initState cfg) = some st ∧
        st.queue = [] ∧
        st.visited.head? = some cfg.baseUrl ∧
        st.visited.Nodup ∧
        (∀ u, u ∈ st.visited ↔ Reachable cfg u) ∧
        st.pages.Nodup ∧
        (∀ u ∈ st.pages, u ∈ st.visited) := by
  have hinit_inv : CrawlInv cfg (initState cfg) := by
    refine ⟨?_, ?_, ?_, ?_, ?_, ?_, ?_, ?_⟩
    · intro u hu
      simp [initState] at hu
    · intro u hu
      simp only [initState, List.mem_singleton] at hu
      subst hu
      exact Relation.ReflTransGen.refl
    · simp [initState]
    · intro u hu
      simp [initState] at hu
    · right
      simp [initState]
    · exact Or.inl ⟨rfl, rfl⟩
    · intro u hu
      simp [initState] at hu
    · simp [initState]
  have hqsub : ∀ u ∈ (initState cfg).queue, u ∈ crawlUniverse cfg := by
    intro u hu
    simp only [initState, List.mem_singleton] at hu
    subst hu
    simp [crawlUniverse]
  have hterm := crawlLoop_terminates cfg (crawlMeasure cfg (initState cfg) + 1)
    (initState cfg) hqsub (Nat.lt_succ_self _)
  obtain ⟨st, hst⟩ := Option.isSome_iff_exists.mp hterm
  have hinv := crawlInv_crawlLoop cfg _ _ st hinit_inv hst
  have hqnil := crawlLoop_queue_nil cfg _ _ st hst
  refine ⟨_, st, hst, hqnil, ?_, hinv.visited_nodup, ?_, hinv.pages_nodup,
    hinv.pages_sub⟩
  · rcases hinv.head_seed with ⟨_, hq⟩ | hh
    · rw [hqnil] at hq
      cases hq
    · exact hh
  · intro u
    constructor
    · exact hinv.visited_reach u
    · intro hr
      have hseed : cfg.baseUrl ∈ st.visited := by
        rcases hinv.seed_in with h | h
        · exact h
        · rw [hqnil] at h
          simp at h
      induction hr with
      | refl => exact hseed
      | tail h1 hedge ih =>
          rcases hinv.closed _ ih _ hedge with h | h
          · exact h
          · rw [hqnil] at h
            simp at h

/-- C4 witness configuration: a two-page site with a link cycle (a links to
b; b links back to a and to itself). -/
def c4W : CrawlConfig :=
  { baseUrl := "https://y.io/a", baseDomain := "https://y.io",
    joinUrl := fun _ h => "https://y.io" ++ h,
    site := [("https://y.io/a", ["/b"]), ("https://y.io/b", ["/a", "/b"])] }

/-- C4 witness: the cyclic two-page crawl terminates after visiting each page
exactly once, and the theorem's conclusion holds for it. -/
theorem c4_witness :
    crawlLoop c4W 3 (initState c4W) =
        some { visited := ["https://y.io/a", "https://y.io/b"],
               pages := ["https://y.io/a", "https://y.io/b"], queue := [] } ∧
      (∃ (fuel : Nat) (st : CrawlState),
        crawlLoop c4W fuel (initState c4W) = some st ∧
          st.queue = [] ∧
          st.visited.head? = some c4W.baseUrl ∧
          st.visited.Nodup ∧
          (∀ u, u ∈ st.visited ↔ Reachable c4W u) ∧
          st.pages.Nodup ∧
          (∀ u ∈ st.pages, u ∈ st.visited)) :=
  ⟨by decide, c4_holds c4W⟩
